import Mathlib

/-!
# Verification of the grenache UDP-holepunch RPC example and its core protocol

Shallow embedding of `examples/punch_simple_servers/rpc_server_behind_nat.js`
(the fibonacci calculation service of the repository's article) together with a
model of the protocol core the article describes (rendezvous loop, punch
engine, request/reply transport).  Machine integers of the source are embedded
as `Int`; JavaScript arrays as `List`.
-/

namespace Grenache

/-- The inner recursion `_fibonacci` of `rpc_server_behind_nat.js`:
`if (n <= 1) { return 1 } return _fibonacci(n - 1) + _fibonacci(n - 2)`. -/
def fibRec (n : Int) : Int :=
  if h : n ≤ 1 then 1
  else fibRec (n - 1) + fibRec (n - 2)
termination_by n.toNat
decreasing_by
  · omega
  · omega

/-- The loop body of `fibonacci`: `for (let i = 0; i < length; i++)
{ res.push(_fibonacci(i)) }`, with the accumulator `res` made explicit. -/
def fibLoop (len i : Int) (res : List Int) : List Int :=
  if h : i < len then fibLoop len (i + 1) (res ++ [fibRec i])
  else res
termination_by (len - i).toNat
decreasing_by omega

/-- `fibonacci (length)` of `rpc_server_behind_nat.js`: starts with `res = []`
and `i = 0` and runs the loop. -/
def fibonacci (len : Int) : List Int := fibLoop len 0 []

/-- A reply as passed to `handler.reply(err, result)` by the example server. -/
structure HandlerReply where
  error : Option String
  result : List Int
deriving DecidableEq

/-- The request handler registered by `service.on` in
`rpc_server_behind_nat.js`: it computes `fibonacci(payload.length)` and calls
`handler.reply(null, result)` — the error argument is always `null`. -/
def requestHandler (payloadLength : Int) : HandlerReply :=
  ⟨none, fibonacci payloadLength⟩

theorem fibRec_base {n : Int} (h : n ≤ 1) : fibRec n = 1 := by
  rw [fibRec]
  simp [h]

theorem fibRec_step {n : Int} (h : ¬ n ≤ 1) :
    fibRec n = fibRec (n - 1) + fibRec (n - 2) := by
  rw [fibRec]
  simp [h]

theorem fibLoop_stop {L i : Int} (h : ¬ i < L) (res : List Int) :
    fibLoop L i res = res := by
  rw [fibLoop]
  simp [h]

theorem fibLoop_go {L i : Int} (h : i < L) (res : List Int) :
    fibLoop L i res = fibLoop L (i + 1) (res ++ [fibRec i]) := by
  rw [fibLoop]
  simp [h]

/-- A structurally recursive companion of `_fibonacci` on `Nat`, used to
evaluate the well-founded `fibRec` on concrete inputs. -/
def fibN : Nat → Int
  | 0 => 1
  | 1 => 1
  | n + 2 => fibN (n + 1) + fibN n

theorem fibRec_eq_fibN : ∀ k : Nat, fibRec (k : Int) = fibN k := by
  intro k
  induction k using Nat.strong_induction_on with
  | _ k ih =>
    match k with
    | 0 => rw [fibRec_base (by norm_num)]; rfl
    | 1 => rw [fibRec_base (by norm_num)]; rfl
    | n + 2 =>
      have h2 : ¬ ((n + 2 : Nat) : Int) ≤ 1 := by push_cast; omega
      rw [fibRec_step h2]
      have e1 : ((n + 2 : Nat) : Int) - 1 = ((n + 1 : Nat) : Int) := by
        push_cast; ring
      have e2 : ((n + 2 : Nat) : Int) - 2 = ((n : Nat) : Int) := by
        push_cast; ring
      rw [e1, e2, ih (n + 1) (by omega), ih n (by omega)]
      rfl

theorem fibLoop_append_fuel :
    ∀ (fuel : Nat) (L i : Int), (L - i).toNat ≤ fuel →
      ∀ res : List Int, fibLoop L i res = res ++ fibLoop L i [] := by
  intro fuel
  induction fuel with
  | zero =>
    intro L i hle res
    have h : ¬ i < L := by omega
    rw [fibLoop_stop h, fibLoop_stop h]
    simp
  | succ fuel ih =>
    intro L i hle res
    by_cases h : i < L
    · rw [fibLoop_go h, fibLoop_go h, ih L (i + 1) (by omega),
        ih L (i + 1) (by omega) ([] ++ [fibRec i])]
      simp
    · rw [fibLoop_stop h, fibLoop_stop h]
      simp

theorem fibLoop_append (L i : Int) (res : List Int) :
    fibLoop L i res = res ++ fibLoop L i [] :=
  fibLoop_append_fuel (L - i).toNat L i le_rfl res

theorem fibLoop_range :
    ∀ (d : Nat) (i : Int),
      fibLoop (i + d) i [] =
        (List.range d).map (fun k : Nat => fibRec (i + (k : Int))) := by
  intro d
  induction d with
  | zero =>
    intro i
    rw [fibLoop_stop (by omega)]
    simp
  | succ d ih =>
    intro i
    have hlt : i < i + ((d + 1 : Nat) : Int) := by push_cast; omega
    rw [fibLoop_go hlt]
    simp only [List.nil_append]
    rw [fibLoop_append]
    have harg : i + ((d + 1 : Nat) : Int) = (i + 1) + ((d : Nat) : Int) := by
      push_cast; ring
    rw [harg, ih (i + 1)]
    rw [List.range_succ_eq_map]
    simp only [List.map_cons, List.map_map, Nat.cast_zero, add_zero,
      List.singleton_append]
    congr 1
    apply List.map_congr_left
    intro a _
    simp only [Function.comp_apply]
    congr 1
    push_cast
    ring

theorem fibonacci_eq_map (n : Nat) :
    fibonacci (n : Int) = (List.range n).map (fun k : Nat => fibRec (k : Int)) := by
  unfold fibonacci
  have h0 : ((n : Int)) = 0 + ((n : Nat) : Int) := by ring
  rw [h0, fibLoop_range n 0]
  apply List.map_congr_left
  intro a _
  rw [zero_add]

theorem fibonacci_eq_fibN (n : Nat) :
    fibonacci (n : Int) = (List.range n).map fibN := by
  rw [fibonacci_eq_map]
  apply List.map_congr_left
  intro a _
  exact fibRec_eq_fibN a

theorem fibonacci_nonpos {len : Int} (h : len ≤ 0) : fibonacci len = [] := by
  unfold fibonacci
  rw [fibLoop_stop (by omega)]

/-- `_fibonacci` run under an explicit call-depth budget: `none` means the
budget was exhausted before the recursion returned.  Mirrors the call
structure of the source exactly. -/
def fibRecFuel : Nat → Int → Option Int
  | 0, _ => none
  | fuel + 1, n =>
    if n ≤ 1 then some 1
    else
      match fibRecFuel fuel (n - 1), fibRecFuel fuel (n - 2) with
      | some a, some b => some (a + b)
      | _, _ => none

/-- The `fibonacci` loop run under an explicit iteration budget. -/
def fibLoopFuel : Nat → Int → Int → List Int → Option (List Int)
  | 0, _, _, _ => none
  | fuel + 1, len, i, res =>
    if i < len then
      match fibRecFuel (i.toNat + 1) i with
      | some v => fibLoopFuel fuel len (i + 1) (res ++ [v])
      | none => none
    else some res

theorem fibRecFuel_adequate :
    ∀ (fuel : Nat) (n : Int), n.toNat < fuel →
      fibRecFuel fuel n = some (fibRec n) := by
  intro fuel
  induction fuel with
  | zero => intro n h; omega
  | succ fuel ih =>
    intro n h
    by_cases hb : n ≤ 1
    · rw [fibRec_base hb]
      simp [fibRecFuel, hb]
    · rw [fibRec_step hb]
      have h1 : (n - 1).toNat < fuel := by omega
      have h2 : (n - 2).toNat < fuel := by omega
      simp [fibRecFuel, hb, ih (n - 1) h1, ih (n - 2) h2]

theorem fibLoopFuel_adequate :
    ∀ (fuel : Nat) (len i : Int) (res : List Int), (len - i).toNat < fuel →
      fibLoopFuel fuel len i res = some (fibLoop len i res) := by
  intro fuel
  induction fuel with
  | zero => intro len i res h; omega
  | succ fuel ih =>
    intro len i res h
    by_cases hlt : i < len
    · rw [fibLoop_go hlt]
      have hv : fibRecFuel (i.toNat + 1) i = some (fibRec i) :=
        fibRecFuel_adequate (i.toNat + 1) i (by omega)
      simp [fibLoopFuel, hlt, hv, ih len (i + 1) (res ++ [fibRec i]) (by omega)]
    · rw [fibLoop_stop hlt]
      simp [fibLoopFuel, hlt]

/-! ## Caller-side request/reply transport

The RpcTransport implementation of `grenache-nodejs-utp` is not part of this
repository; the definitions below are modelled from the specification's
description of its caller side. -/

/-- Modelled from the spec: `PendingRequest` (§3) of the RpcTransport, whose
implementation (grenache-nodejs-utp) is not under `src/`.  The `resultSink`
is represented by the `delivered` log of `ClientState`. -/
structure PendingRequest where
  requestId : Nat
  deadline : Nat
deriving DecidableEq

/-- Modelled from the spec: the three completions a caller can receive for a
request (§3, §7, §8): success, application-level handler error, timeout. -/
inductive Completion where
  | success (result : List Int)
  | handlerError (info : String)
  | timeout
deriving DecidableEq

/-- Modelled from the spec: caller-side state of the RpcTransport (§4.3):
the pending-request table, the log of completions delivered to result sinks,
and the current clock. -/
structure ClientState where
  pending : List PendingRequest
  delivered : List (Nat × Completion)
  now : Nat
deriving DecidableEq

def pendingHas (rid : Nat) (s : ClientState) : Bool :=
  s.pending.any (fun p => decide (p.requestId = rid))

/-- Modelled from the spec: a ReplyEnvelope's optional error field decides
between a success and a handler-error completion (§3, §7 `HandlerError`). -/
def completionOf (error : Option String) (result : List Int) : Completion :=
  match error with
  | some e => Completion.handlerError e
  | none => Completion.success result

/-- Modelled from the spec: reply arrival (§4.3): a reply is matched against
the pending-request table by requestId; on a match the PendingRequest is
removed and its sink invoked exactly once; with no matching PendingRequest
the reply is silently dropped (§7 `DuplicateReply`). -/
def applyReply (rid : Nat) (error : Option String) (result : List Int)
    (s : ClientState) : ClientState :=
  if pendingHas rid s then
    { s with
      pending := s.pending.filter (fun p => decide (¬ p.requestId = rid))
      delivered := s.delivered ++ [(rid, completionOf error result)] }
  else s

/-- Modelled from the spec: passage of one clock unit; every PendingRequest
whose deadline has passed is removed and a `RequestTimeout` delivered to its
sink (§4.3, §7 `RequestTimeout`). -/
def applyTick (s : ClientState) : ClientState :=
  { pending := s.pending.filter (fun p => decide (s.now + 1 < p.deadline))
    delivered := s.delivered ++
      ((s.pending.filter (fun p => decide (p.deadline ≤ s.now + 1))).map
        (fun p => (p.requestId, Completion.timeout)))
    now := s.now + 1 }

/-- Modelled from the spec: caller-initiated cancellation (§5): removes the
PendingRequest without invoking its sink; a late reply is then discarded. -/
def cancelReq (rid : Nat) (s : ClientState) : ClientState :=
  { s with pending := s.pending.filter (fun p => decide (¬ p.requestId = rid)) }

/-- Events the caller-side transport reacts to: an incoming decoded reply,
or the passage of one clock unit. -/
inductive CEv where
  | reply (rid : Nat) (error : Option String) (result : List Int)
  | tick
deriving DecidableEq

def cstep (s : ClientState) (e : CEv) : ClientState :=
  match e with
  | CEv.reply rid error result => applyReply rid error result s
  | CEv.tick => applyTick s

def crun (s : ClientState) : List CEv → ClientState
  | [] => s
  | e :: evs => crun (cstep s e) evs

/-- Number of completions delivered to the sink of `rid`. -/
def countFor (rid : Nat) (s : ClientState) : Nat :=
  s.delivered.countP (fun x => decide (x.1 = rid))

/-- Number of pending-table entries for `rid`. -/
def pcount (rid : Nat) (l : List PendingRequest) : Nat :=
  l.countP (fun p => decide (p.requestId = rid))

theorem pcount_filter_self (rid : Nat) (l : List PendingRequest) :
    pcount rid (l.filter (fun p => decide (¬ p.requestId = rid))) = 0 := by
  induction l with
  | nil => rfl
  | cons p l ih =>
    by_cases h : p.requestId = rid <;>
      simp [pcount, List.filter, List.countP_cons, h] at ih ⊢ <;> exact ih

theorem pcount_filter_other {rid rid' : Nat} (hne : rid' ≠ rid)
    (l : List PendingRequest) :
    pcount rid (l.filter (fun p => decide (¬ p.requestId = rid'))) =
      pcount rid l := by
  induction l with
  | nil => rfl
  | cons p l ih =>
    by_cases h2 : p.requestId = rid
    · have h : ¬ p.requestId = rid' := by
        rw [h2]; exact fun e => hne e.symm
      simp [pcount, List.filter_cons, List.countP_cons, h, h2,
        Ne.symm hne] at ih ⊢
      exact ih
    · by_cases h : p.requestId = rid'
      · simp [pcount, List.filter_cons, List.countP_cons, h, h2, hne] at ih ⊢
        exact ih
      · simp [pcount, List.filter_cons, List.countP_cons, h, h2] at ih ⊢
        exact ih

theorem pendingHas_iff (rid : Nat) (s : ClientState) :
    pendingHas rid s = true ↔ 0 < pcount rid s.pending := by
  unfold pendingHas pcount
  rw [List.any_eq_true, List.countP_pos_iff]

theorem dcount_map_timeout (rid : Nat) (l : List PendingRequest) :
    (l.map (fun p => (p.requestId, Completion.timeout))).countP
        (fun x => decide (x.1 = rid)) = pcount rid l := by
  induction l with
  | nil => rfl
  | cons p l ih =>
    by_cases h : p.requestId = rid <;>
      simp [pcount, List.countP_cons, h] at ih ⊢ <;> exact ih

theorem pcount_filter_zero {rid : Nat} {l : List PendingRequest}
    (h : pcount rid l = 0) (q : PendingRequest → Bool) :
    pcount rid (l.filter q) = 0 := by
  unfold pcount at h ⊢
  rw [List.countP_eq_zero] at h ⊢
  intro a ha
  exact h a (List.mem_filter.mp ha).1

theorem pcount_filter_keep (rid d t : Nat) (ht : t < d) :
    ∀ l : List PendingRequest,
      (∀ p ∈ l, p.requestId = rid → p.deadline = d) →
      pcount rid (l.filter (fun p => decide (t < p.deadline))) = pcount rid l ∧
      pcount rid (l.filter (fun p => decide (p.deadline ≤ t))) = 0 := by
  intro l
  induction l with
  | nil => intro _; exact ⟨rfl, rfl⟩
  | cons p l ih =>
    intro hd
    obtain ⟨ih1, ih2⟩ := ih (fun q hq => hd q (List.mem_cons_of_mem p hq))
    simp only [List.filter_cons]
    by_cases hr : p.requestId = rid
    · have hpd : p.deadline = d := hd p (List.mem_cons_self p l) hr
      have c1 : decide (t < p.deadline) = true := by simp [hpd, ht]
      have c2 : decide (p.deadline ≤ t) = false := by simp [hpd]; omega
      rw [c1, c2]
      simp [pcount, List.countP_cons, hr] at ih1 ih2 ⊢
      exact ⟨ih1, ih2⟩
    · constructor
      · by_cases hc : t < p.deadline <;>
          simp [pcount, List.countP_cons, hr, hc] at ih1 ⊢ <;> exact ih1
      · by_cases hc : p.deadline ≤ t <;>
          simp [pcount, List.countP_cons, hr, hc] at ih2 ⊢ <;> exact ih2

theorem pcount_filter_expire (rid d t : Nat) (ht : d ≤ t) :
    ∀ l : List PendingRequest,
      (∀ p ∈ l, p.requestId = rid → p.deadline = d) →
      pcount rid (l.filter (fun p => decide (t < p.deadline))) = 0 ∧
      pcount rid (l.filter (fun p => decide (p.deadline ≤ t))) = pcount rid l := by
  intro l
  induction l with
  | nil => intro _; exact ⟨rfl, rfl⟩
  | cons p l ih =>
    intro hd
    obtain ⟨ih1, ih2⟩ := ih (fun q hq => hd q (List.mem_cons_of_mem p hq))
    simp only [List.filter_cons]
    by_cases hr : p.requestId = rid
    · have hpd : p.deadline = d := hd p (List.mem_cons_self p l) hr
      have c1 : decide (t < p.deadline) = false := by simp [hpd]; omega
      have c2 : decide (p.deadline ≤ t) = true := by simp [hpd, ht]
      rw [c1, c2]
      simp [pcount, List.countP_cons, hr] at ih1 ih2 ⊢
      exact ⟨ih1, ih2⟩
    · constructor
      · by_cases hc : t < p.deadline <;>
          simp [pcount, List.countP_cons, hr, hc] at ih1 ⊢ <;> exact ih1
      · by_cases hc : p.deadline ≤ t <;>
          simp [pcount, List.countP_cons, hr, hc] at ih2 ⊢ <;> exact ih2

/-- The exactly-once discipline for one requestId (spec §3, §5, §8): either
the request is still pending — uniquely, with known deadline, nothing yet
delivered, clock strictly before the deadline — or it has completed with
exactly one delivery to its sink. -/
def OnceInv (rid d : Nat) (s : ClientState) : Prop :=
  (pcount rid s.pending = 1 ∧
    (∀ p ∈ s.pending, p.requestId = rid → p.deadline = d) ∧
    countFor rid s = 0 ∧ s.now < d)
  ∨ (pcount rid s.pending = 0 ∧ countFor rid s = 1)

theorem onceInv_applyReply {rid d : Nat} {s : ClientState}
    (h : OnceInv rid d s) (rid' : Nat) (e : Option String) (r : List Int) :
    OnceInv rid d (applyReply rid' e r s) := by
  unfold applyReply
  by_cases hp : pendingHas rid' s = true
  · simp only [hp, if_true]
    by_cases hrr : rid' = rid
    · subst hrr
      rcases h with ⟨h1, _h2, h3, _h4⟩ | ⟨h1, _h2⟩
      · right
        refine ⟨pcount_filter_self rid' s.pending, ?_⟩
        unfold countFor at h3 ⊢
        simp [List.countP_append, h3]
      · exfalso
        have := (pendingHas_iff rid' s).mp hp
        omega
    · rcases h with ⟨h1, h2, h3, h4⟩ | ⟨h1, h2⟩
      · left
        refine ⟨?_, ?_, ?_, h4⟩
        · rw [pcount_filter_other hrr]; exact h1
        · intro p hp'
          exact h2 p (List.mem_filter.mp hp').1
        · unfold countFor at h3 ⊢
          simp [List.countP_append, h3, hrr]
      · right
        refine ⟨pcount_filter_zero h1 _, ?_⟩
        unfold countFor at h2 ⊢
        simp [List.countP_append, h2, hrr]
  · simp only [hp, if_false]
    simpa using h

theorem onceInv_applyTick {rid d : Nat} {s : ClientState}
    (h : OnceInv rid d s) : OnceInv rid d (applyTick s) := by
  rcases h with ⟨h1, h2, h3, _h4⟩ | ⟨h1, h2⟩
  · by_cases ht : s.now + 1 < d
    · left
      obtain ⟨k1, k2⟩ := pcount_filter_keep rid d (s.now + 1) ht s.pending h2
      refine ⟨?_, ?_, ?_, ?_⟩
      · show pcount rid (s.pending.filter _) = 1
        rw [k1]; exact h1
      · intro p hp'
        exact h2 p (List.mem_filter.mp hp').1
      · unfold countFor at h3 ⊢
        simp only [applyTick, List.countP_append, dcount_map_timeout]
        omega
      · exact ht
    · right
      obtain ⟨k1, k2⟩ := pcount_filter_expire rid d (s.now + 1) (by omega)
        s.pending h2
      refine ⟨k1, ?_⟩
      unfold countFor at h3 ⊢
      simp only [applyTick, List.countP_append, dcount_map_timeout]
      omega
  · right
    refine ⟨pcount_filter_zero h1 _, ?_⟩
    have k2 : pcount rid (s.pending.filter
        (fun p => decide (p.deadline ≤ s.now + 1))) = 0 :=
      pcount_filter_zero h1 _
    unfold countFor at h2 ⊢
    simp only [applyTick, List.countP_append, dcount_map_timeout]
    omega

theorem onceInv_cstep {rid d : Nat} {s : ClientState}
    (h : OnceInv rid d s) (e : CEv) : OnceInv rid d (cstep s e) := by
  cases e with
  | reply rid' err res => exact onceInv_applyReply h rid' err res
  | tick => exact onceInv_applyTick h

theorem onceInv_crun {rid d : Nat} :
    ∀ (evs : List CEv) (s : ClientState),
      OnceInv rid d s → OnceInv rid d (crun s evs) := by
  intro evs
  induction evs with
  | nil => intro s h; exact h
  | cons e evs ih => intro s h; exact ih (cstep s e) (onceInv_cstep h e)

/-! ## Wire format and datagram dispatch

Modelled from the spec (§4.2, §4.3, §6, §7): the UDP transport of
`grenache-nodejs-utp` is not part of this repository. -/

/-- Raw bytes of a UDP datagram. -/
abbrev Bytes := List Nat

/-- Modelled from the spec: the decoded wire frames of §6 — punch, request
and reply, each opening with a type discriminator. -/
inductive RawFrame where
  | punch (senderEcho : Bytes)
  | request (requestId : Nat) (key : Bytes) (payload : Bytes)
  | reply (requestId : Nat) (errorFlag : Bool) (errorInfo : Bytes)
      (result : Bytes)
deriving DecidableEq

/-- Reads a uint64 as eight big-endian bytes. -/
def parseU64 : Bytes → Option (Nat × Bytes)
  | b0 :: b1 :: b2 :: b3 :: b4 :: b5 :: b6 :: b7 :: rest =>
      some (((((((b0 * 256 + b1) * 256 + b2) * 256 + b3) * 256 + b4) * 256
        + b5) * 256 + b6) * 256 + b7, rest)
  | _ => none

/-- Reads a length-prefixed field: one length byte, then that many bytes. -/
def parseLenField : Bytes → Option (Bytes × Bytes)
  | n :: rest =>
      if n ≤ rest.length then some (rest.take n, rest.drop n) else none
  | [] => none

/-- Modelled from the spec: the frame parser of §6.  Every frame begins with
the type discriminator (here 0 = PUNCH, 1 = REQUEST, 2 = REPLY); unknown
discriminators, truncated fields and bad error flags fail the parse. -/
def parseFrame (d : Bytes) : Option RawFrame :=
  match d with
  | [] => none
  | t :: rest =>
    if t = 0 then some (RawFrame.punch rest)
    else if t = 1 then
      match parseU64 rest with
      | none => none
      | some (rid, r1) =>
        match parseLenField r1 with
        | none => none
        | some (key, payload) => some (RawFrame.request rid key payload)
    else if t = 2 then
      match parseU64 rest with
      | none => none
      | some (rid, r1) =>
        match r1 with
        | [] => none
        | f :: r2 =>
          if f = 0 then some (RawFrame.reply rid false [] r2)
          else if f = 1 then
            match parseLenField r2 with
            | none => none
            | some (einfo, result) =>
                some (RawFrame.reply rid true einfo result)
          else none
    else none

/-- Modelled from the spec: per-candidate NAT-traversal state (§3). -/
inductive PunchState where
  | Unknown
  | PunchSent
  | PunchReceived
  | Established
deriving DecidableEq

/-- Modelled from the spec: a cached directory record (§3 `PeerRecord`). -/
structure PeerRecord where
  serviceKey : String
  address : Nat
  port : Nat
  metadata : List (String × Bytes)
  expiresAt : Nat
deriving DecidableEq

/-- Modelled from the spec: the state shared by the datagram dispatch loop
(§5): the PeerRecord cache, the punch-state table, the pending-request table,
and the log of raw reply completions. -/
structure NodeState where
  peerCache : List PeerRecord
  punchTable : List (Nat × PunchState)
  pending : List PendingRequest
  completed : List (Nat × Bool × Bytes × Bytes)
deriving DecidableEq

/-- Observable actions of the dispatch loop: datagram sends and events. -/
inductive Output where
  | send (dst : Nat) (frame : RawFrame)
  | peerReady (addr : Nat)
deriving DecidableEq

def lookupPunch (s : NodeState) (a : Nat) : Option PunchState :=
  s.punchTable.lookup a

def setPunch (s : NodeState) (a : Nat) (st : PunchState) : NodeState :=
  { s with punchTable :=
      (a, st) :: s.punchTable.filter (fun x => decide (¬ x.1 = a)) }

/-- Modelled from the spec: punch handling (§4.2): on a well-formed punch
datagram from `b`, if `b` is absent or below `Established`, immediately send
a punch-back datagram (a content-free marker) to `b`, transition `b` to
`Established` and emit `peerReady b`; an `Established` peer needs nothing. -/
def handlePunch (b : Nat) (s : NodeState) : NodeState × List Output :=
  if lookupPunch s b = some PunchState.Established then (s, [])
  else (setPunch s b PunchState.Established,
    [Output.send b (RawFrame.punch []), Output.peerReady b])

/-- Modelled from the spec: reply arrival on the raw path (§4.3): matched by
requestId against the pending table; with no match the reply is dropped. -/
def handleReplyRaw (rid : Nat) (flag : Bool) (einfo result : Bytes)
    (s : NodeState) : NodeState :=
  if s.pending.any (fun p => decide (p.requestId = rid)) then
    { s with
      pending := s.pending.filter (fun p => decide (¬ p.requestId = rid))
      completed := s.completed ++ [(rid, flag, einfo, result)] }
  else s

/-- A registered request handler at the wire level: key and payload bytes in,
`(errorFlag, errorInfo, result)` out (§4.3 `registerHandler`). -/
abbrev WireHandler := Bytes → Bytes → Bool × Bytes × Bytes

/-- Modelled from the spec: frame routing of the dispatch loop (§4.3). -/
def dispatchFrame (h : WireHandler) (src : Nat) (f : RawFrame)
    (s : NodeState) : NodeState × List Output :=
  match f with
  | RawFrame.punch _ => handlePunch src s
  | RawFrame.reply rid flag einfo result =>
      (handleReplyRaw rid flag einfo result s, [])
  | RawFrame.request rid key payload =>
      match h key payload with
      | (flag, einfo, result) =>
          (s, [Output.send src (RawFrame.reply rid flag einfo result)])

/-- Modelled from the spec: datagram reception (§4.3, §7 `MalformedFrame`):
parse, then route; a datagram that fails to parse is dropped, with no state
change and nothing surfaced to any caller. -/
def receiveDatagram (h : WireHandler) (src : Nat) (d : Bytes)
    (s : NodeState) : NodeState × List Output :=
  match parseFrame d with
  | none => (s, [])
  | some f => dispatchFrame h src f s

/-! ## Periodic connection loop -/

/-- Modelled from the spec: ConnectionLoop configuration (§4.4, §6); the
driver's library side (`link.announce` / `peer.punch` behind `setInterval`
in the example) is not under `src/`. -/
structure LoopCfg where
  serviceKey : String
  port : Nat
  keysOfInterest : List String
  announceInterval : Nat := 1000
deriving DecidableEq

/-- One observable action of a ConnectionLoop tick. -/
inductive LoopAction where
  | announce (key : String) (port : Nat)
  | lookupKey (key : String)
  | punchStep (candidates : List Nat)
deriving DecidableEq

/-- Modelled from the spec: what one tick performs, in order (§4.4): announce
the local service, look up each serviceKey of interest, feed the resolved
candidate set to the punch step. -/
def tickActions (cfg : LoopCfg) (resolve : String → List Nat) :
    List LoopAction :=
  LoopAction.announce cfg.serviceKey cfg.port ::
    (cfg.keysOfInterest.map LoopAction.lookupKey ++
      [LoopAction.punchStep (cfg.keysOfInterest.map resolve).flatten])

/-- Modelled from the spec: the fixed-interval schedule (§4.4): the n-th tick
fires at n times the configured interval. -/
def tickTime (cfg : LoopCfg) (n : Nat) : Nat := n * cfg.announceInterval

/-- The loop the example server drives every 1000 ms
(`setInterval(function () { link.announce(..); peer.punch(..) }, 1000)`):
announce `fibonacci_worker`, resolve and punch `fibonacci_consumer`. -/
def demoServerCfg (port : Nat) : LoopCfg :=
  { serviceKey := "fibonacci_worker"
    port := port
    keysOfInterest := ["fibonacci_consumer"] }

/-! ## Further auxiliary lemmas -/

theorem fibonacci_ten : fibonacci 10 = [1, 1, 2, 3, 5, 8, 13, 21, 34, 55] := by
  have h : (10 : Int) = ((10 : Nat) : Int) := by norm_num
  rw [h, fibonacci_eq_fibN]
  decide

theorem pendingHas_false_iff (rid : Nat) (s : ClientState) :
    pendingHas rid s = false ↔ pcount rid s.pending = 0 := by
  rw [← Bool.not_eq_true, pendingHas_iff]
  omega

theorem pendingHas_applyReply (rid : Nat) (e : Option String) (r : List Int)
    (s : ClientState) : pendingHas rid (applyReply rid e r s) = false := by
  unfold applyReply
  by_cases hp : pendingHas rid s = true
  · rw [if_pos hp, pendingHas_false_iff]
    exact pcount_filter_self rid s.pending
  · rw [if_neg hp]
    exact Bool.not_eq_true _ |>.mp hp

theorem pendingHas_cancelReq (rid : Nat) (s : ClientState) :
    pendingHas rid (cancelReq rid s) = false := by
  rw [pendingHas_false_iff]
  exact pcount_filter_self rid s.pending

theorem getD_map_range (f : Nat → Int) (n i : Nat) (hi : i < n) :
    ((List.range n).map f).getD i 0 = f i := by
  simp [List.getD_eq_getElem?_getD, List.getElem?_map, List.getElem?_range, hi]

theorem fibN_add_two (m : Nat) : fibN (m + 2) = fibN (m + 1) + fibN m := rfl

/-! ## The claims -/

/-- C1: for the request payload `{length: 10}` the registered handler computes
the fibonacci sequence of `payload.length` and replies with a null error, and
a caller holding a matching PendingRequest gets exactly the success completion
`[1,1,2,3,5,8,13,21,34,55]` delivered; equivalently, `fibonacci 10` returns
that list. -/
theorem c1_fib10_request :
    fibonacci 10 = [1, 1, 2, 3, 5, 8, 13, 21, 34, 55] ∧
    requestHandler 10 = ⟨none, [1, 1, 2, 3, 5, 8, 13, 21, 34, 55]⟩ ∧
    ∀ (s : ClientState) (rid : Nat), pendingHas rid s = true →
      (applyReply rid (requestHandler 10).error (requestHandler 10).result
          s).delivered =
        s.delivered ++
          [(rid, Completion.success [1, 1, 2, 3, 5, 8, 13, 21, 34, 55])] := by
  refine ⟨fibonacci_ten, ?_, ?_⟩
  · unfold requestHandler
    rw [fibonacci_ten]
  · intro s rid hp
    unfold applyReply requestHandler
    simp only [hp, if_true]
    rw [fibonacci_ten]
    rfl

theorem c1_fib10_request_witness :
    (applyReply 5 (requestHandler 10).error (requestHandler 10).result
        ⟨[⟨5, 9⟩], [], 0⟩).delivered =
      ([] : List (Nat × Completion)) ++
        [(5, Completion.success [1, 1, 2, 3, 5, 8, 13, 21, 34, 55])] :=
  c1_fib10_request.2.2 ⟨[⟨5, 9⟩], [], 0⟩ 5 (by decide)

/-- C2, counterexample: for the payload `{length: -1}` the registered handler
does NOT report an application-level failure — it replies with a null error
(`handler.reply(null, fibonacci(-1))`) and an empty result, so no reply with
`errorFlag = true` is produced. -/
theorem c2_counterexample :
    (requestHandler (-1)).error = none ∧ (requestHandler (-1)).result = [] := by
  refine ⟨rfl, ?_⟩
  show fibonacci (-1) = []
  exact fibonacci_nonpos (by norm_num)

/-- C2 (amended): for the payload `{length: -1}` the handler raises no
application error: `fibonacci (-1)` is the empty list, the handler replies
`(null, [])`, and a caller holding a matching PendingRequest gets the success
completion carrying the empty list — a normal result, not a failure and not a
timeout. -/
theorem c2_amended_null_error_reply :
    requestHandler (-1) = ⟨none, []⟩ ∧
    ∀ (s : ClientState) (rid : Nat), pendingHas rid s = true →
      (applyReply rid (requestHandler (-1)).error (requestHandler (-1)).result
          s).delivered =
        s.delivered ++ [(rid, Completion.success [])] := by
  have hf : fibonacci (-1) = [] := fibonacci_nonpos (by norm_num)
  constructor
  · unfold requestHandler
    rw [hf]
  · intro s rid hp
    unfold applyReply requestHandler
    simp only [hp, if_true]
    rw [hf]
    rfl

theorem c2_amended_null_error_reply_witness :
    (applyReply 9 (requestHandler (-1)).error (requestHandler (-1)).result
        ⟨[⟨9, 4⟩], [], 1⟩).delivered =
      ([] : List (Nat × Completion)) ++ [(9, Completion.success [])] :=
  c2_amended_null_error_reply.2 ⟨[⟨9, 4⟩], [], 1⟩ 9 (by decide)

/-- C8: for every length ≤ 0 (so also -1) `fibonacci` returns the empty list
without raising, and consequently the handler replies with a null error and
an empty result. -/
theorem c8_nonpositive_empty_reply (len : Int) (h : len ≤ 0) :
    fibonacci len = [] ∧ requestHandler len = ⟨none, []⟩ := by
  have hf := fibonacci_nonpos h
  exact ⟨hf, by unfold requestHandler; rw [hf]⟩

theorem c8_nonpositive_empty_reply_witness :
    fibonacci (-1) = [] ∧ requestHandler (-1) = ⟨none, []⟩ :=
  c8_nonpositive_empty_reply (-1) (by decide)

/-- C9: the inner recursion `_fibonacci` terminates on every integer `n` — a
call-depth budget of `n.toNat + 1` suffices, and every `n ≤ 1` (negative `n`
included) returns 1 from the base case at depth one — hence the whole
`fibonacci` computation terminates on every integer length. -/
theorem c9_fib_terminates :
    (∀ n : Int, fibRecFuel (n.toNat + 1) n = some (fibRec n)) ∧
    (∀ n : Int, n ≤ 1 → fibRecFuel 1 n = some 1) ∧
    (∀ len : Int, fibLoopFuel (len.toNat + 1) len 0 [] =
      some (fibonacci len)) := by
  refine ⟨?_, ?_, ?_⟩
  · intro n
    exact fibRecFuel_adequate (n.toNat + 1) n (by omega)
  · intro n h
    simp [fibRecFuel, h]
  · intro len
    unfold fibonacci
    exact fibLoopFuel_adequate (len.toNat + 1) len 0 [] (by omega)

theorem c9_fib_terminates_witness :
    fibRecFuel 1 (-5) = some 1 ∧
    fibRecFuel ((-3 : Int).toNat + 1) (-3) = some (fibRec (-3)) :=
  ⟨c9_fib_terminates.2.1 (-5) (by decide), c9_fib_terminates.1 (-3)⟩

/-- C10: `fibonacci n` has exactly `n` elements; it is a prefix of
`fibonacci (n + 1)`; its first two elements (when present) are both 1; and
every element at an index `i ≥ 2` equals the sum of the elements at `i - 1`
and `i - 2`. -/
theorem c10_sequence_props (n : Nat) :
    (fibonacci (n : Int)).length = n ∧
    (∃ t, fibonacci ((n : Int) + 1) = fibonacci (n : Int) ++ t) ∧
    (0 < n → (fibonacci (n : Int)).getD 0 0 = 1) ∧
    (1 < n → (fibonacci (n : Int)).getD 1 0 = 1) ∧
    (∀ i : Nat, 2 ≤ i → i < n →
      (fibonacci (n : Int)).getD i 0 =
        (fibonacci (n : Int)).getD (i - 1) 0 +
          (fibonacci (n : Int)).getD (i - 2) 0) := by
  have hcast : ((n : Int) + 1) = ((n + 1 : Nat) : Int) := by push_cast; ring
  refine ⟨?_, ?_, ?_, ?_, ?_⟩
  · rw [fibonacci_eq_fibN]
    simp
  · refine ⟨[fibN n], ?_⟩
    rw [hcast, fibonacci_eq_fibN, fibonacci_eq_fibN, List.range_succ]
    simp
  · intro h0
    rw [fibonacci_eq_fibN, getD_map_range fibN n 0 h0]
    rfl
  · intro h1
    rw [fibonacci_eq_fibN, getD_map_range fibN n 1 h1]
    rfl
  · intro i h2 hin
    obtain ⟨m, rfl⟩ : ∃ m, i = m + 2 := ⟨i - 2, by omega⟩
    rw [fibonacci_eq_fibN, getD_map_range fibN n (m + 2) hin,
      getD_map_range fibN n (m + 2 - 1) (by omega),
      getD_map_range fibN n (m + 2 - 2) (by omega)]
    have e1 : m + 2 - 1 = m + 1 := by omega
    have e2 : m + 2 - 2 = m := by omega
    rw [e1, e2, fibN_add_two]

theorem c10_sequence_props_witness :
    (fibonacci ((5 : Nat) : Int)).getD 4 0 =
      (fibonacci ((5 : Nat) : Int)).getD 3 0 +
        (fibonacci ((5 : Nat) : Int)).getD 2 0 :=
  (c10_sequence_props 5).2.2.2.2 4 (by decide) (by decide)

/-- C3: for a requestId with a (unique) PendingRequest, at most one completion
is ever delivered to its result sink along any event sequence, and exactly one
— success, handler error or timeout, whichever of matching reply or deadline
expiry occurs first — once the clock has passed the deadline. -/
theorem c3_exactly_once_completion (s0 : ClientState) (rid d : Nat)
    (h1 : pcount rid s0.pending = 1)
    (h2 : ∀ p ∈ s0.pending, p.requestId = rid → p.deadline = d)
    (h3 : countFor rid s0 = 0)
    (h4 : s0.now < d) :
    (∀ evs : List CEv, countFor rid (crun s0 evs) ≤ 1) ∧
    (∀ evs : List CEv, d ≤ (crun s0 evs).now →
      countFor rid (crun s0 evs) = 1) := by
  have hinv : OnceInv rid d s0 := Or.inl ⟨h1, h2, h3, h4⟩
  constructor
  · intro evs
    rcases onceInv_crun evs s0 hinv with ⟨_, _, hc, _⟩ | ⟨_, hc⟩ <;> omega
  · intro evs hdone
    rcases onceInv_crun evs s0 hinv with ⟨_, _, _, hn⟩ | ⟨_, hc⟩
    · omega
    · exact hc

theorem c3_exactly_once_completion_witness :
    countFor 7 (crun ⟨[⟨7, 2⟩], [], 0⟩ [CEv.tick, CEv.tick]) = 1 :=
  (c3_exactly_once_completion ⟨[⟨7, 2⟩], [], 0⟩ 7 2 (by decide) (by decide)
    (by decide) (by decide)).2 [CEv.tick, CEv.tick] (by decide)

/-- C4: at most one reply is accepted per requestId: a reply for a requestId
with no matching PendingRequest leaves the caller state unchanged; after any
reply for `rid` was processed, a subsequent reply with the same requestId is
a no-op; and a reply arriving after cancellation is a no-op. -/
theorem c4_duplicate_reply_discard (s : ClientState) (rid : Nat)
    (e e' : Option String) (r r' : List Int) :
    (pendingHas rid s = false → applyReply rid e r s = s) ∧
    applyReply rid e' r' (applyReply rid e r s) = applyReply rid e r s ∧
    applyReply rid e' r' (cancelReq rid s) = cancelReq rid s := by
  have hdrop : ∀ (s' : ClientState), pendingHas rid s' = false →
      applyReply rid e' r' s' = s' := by
    intro s' hp
    unfold applyReply
    simp [hp]
  refine ⟨?_, ?_, ?_⟩
  · intro hp
    unfold applyReply
    simp [hp]
  · exact hdrop _ (pendingHas_applyReply rid e r s)
  · exact hdrop _ (pendingHas_cancelReq rid s)

theorem c4_duplicate_reply_discard_witness :
    applyReply 3 none [7] ⟨[⟨4, 9⟩], [], 0⟩ = ⟨[⟨4, 9⟩], [], 0⟩ :=
  (c4_duplicate_reply_discard ⟨[⟨4, 9⟩], [], 0⟩ 3 none none [7] []).1
    (by decide)

/-- C5: receiving a well-formed punch datagram from an address `b` whose punch
state is absent or below `Established` makes the receiver send a punch-back
datagram to `b`, transition `b`'s state to `Established`, and emit
`peerReady b`. -/
theorem c5_punch_establishes (h : WireHandler) (s : NodeState) (b : Nat)
    (d echo : Bytes)
    (hw : parseFrame d = some (RawFrame.punch echo))
    (hb : lookupPunch s b ≠ some PunchState.Established) :
    lookupPunch (receiveDatagram h b d s).1 b =
      some PunchState.Established ∧
    (receiveDatagram h b d s).2 =
      [Output.send b (RawFrame.punch []), Output.peerReady b] := by
  unfold receiveDatagram
  rw [hw]
  unfold dispatchFrame handlePunch
  rw [if_neg hb]
  constructor
  · unfold lookupPunch setPunch
    simp [List.lookup]
  · rfl

theorem c5_punch_establishes_witness :
    lookupPunch (receiveDatagram (fun _ _ => (false, [], [])) 3 [0]
        ⟨[], [(3, PunchState.PunchSent)], [], []⟩).1 3 =
      some PunchState.Established ∧
    (receiveDatagram (fun _ _ => (false, [], [])) 3 [0]
        ⟨[], [(3, PunchState.PunchSent)], [], []⟩).2 =
      [Output.send 3 (RawFrame.punch []), Output.peerReady 3] :=
  c5_punch_establishes (fun _ _ => (false, [], []))
    ⟨[], [(3, PunchState.PunchSent)], [], []⟩ 3 [0] [] (by decide) (by decide)

/-- C6: the periodic driver fires at a fixed configurable interval — 1000 ms
for the example's `setInterval(..., 1000)` configuration — and each tick
performs, in order: the announce of the local service first, then one lookup
per serviceKey of interest, then, last, a punch step over the resolved
candidates. -/
theorem c6_loop_schedule (cfg : LoopCfg) (resolve : String → List Nat)
    (n : Nat) :
    tickTime cfg (n + 1) = tickTime cfg n + cfg.announceInterval ∧
    (∀ p : Nat, (demoServerCfg p).announceInterval = 1000) ∧
    (tickActions cfg resolve).head? =
      some (LoopAction.announce cfg.serviceKey cfg.port) ∧
    ((tickActions cfg resolve).drop 1).take cfg.keysOfInterest.length =
      cfg.keysOfInterest.map LoopAction.lookupKey ∧
    (tickActions cfg resolve).getLast? =
      some (LoopAction.punchStep (cfg.keysOfInterest.map resolve).flatten) := by
  refine ⟨?_, fun _ => rfl, rfl, ?_, ?_⟩
  · unfold tickTime
    ring
  · show (cfg.keysOfInterest.map LoopAction.lookupKey ++
        [LoopAction.punchStep _]).take cfg.keysOfInterest.length = _
    rw [← List.length_map cfg.keysOfInterest LoopAction.lookupKey,
      List.take_left]
  · show (LoopAction.announce cfg.serviceKey cfg.port ::
        (cfg.keysOfInterest.map LoopAction.lookupKey ++
          [LoopAction.punchStep _])).getLast? = _
    rw [← List.cons_append, List.getLast?_concat]

/-- C7: a received datagram that fails to parse against the wire format is
dropped: the node state — PeerRecord cache, punch-state table and
pending-request table included — is unchanged, and no output (no send, no
event, no error) is surfaced to any caller. -/
theorem c7_malformed_dropped (h : WireHandler) (src : Nat) (d : Bytes)
    (s : NodeState) (hbad : parseFrame d = none) :
    receiveDatagram h src d s = (s, []) := by
  unfold receiveDatagram
  rw [hbad]

theorem c7_malformed_dropped_witness :
    receiveDatagram (fun _ _ => (false, [], [])) 1 [9]
        ⟨[], [(2, PunchState.PunchSent)], [⟨4, 7⟩], []⟩ =
      (⟨[], [(2, PunchState.PunchSent)], [⟨4, 7⟩], []⟩, []) :=
  c7_malformed_dropped (fun _ _ => (false, [], [])) 1 [9]
    ⟨[], [(2, PunchState.PunchSent)], [⟨4, 7⟩], []⟩ (by decide)

end Grenache
